import Mathlib

/-!
Shallow embedding of the write-back LRU block cache from `src/cachetest.c`
and its near-duplicate revision `src/unnamed/part_000`.

Payloads are the `BLOCKSIZE`-byte buffers of the C code; the tests store a
single `int` in them, so a payload is modelled as `Int`.  The backing store
(`blockData`) is a total map from block number to payload.  Locks and the
condition-variable traffic are concurrency apparatus; the sequential data
semantics of each completed operation is embedded here, and the counter
protocol of `cachetest.c` (lines 204-209, 245-264) is modelled separately
by the `entryGuard...`/`promote...` definitions below.
-/

abbrev Payload := Int

/-- INVALID from cachetest.c line 29: the blocknum of empty cache blocks. -/
def INVALID : Int := -1

/-- One cache slot: struct cacheBlock (cachetest.c lines 32-38), minus the
per-slot mutex, which carries no data. -/
structure CacheBlock where
  blocknum : Int
  dirty : Bool
  block : Payload
deriving DecidableEq

/-- Default slot used for out-of-range `getD` reads; it matches an empty
initialized slot (static storage is zeroed, cacheinit sets the fields). -/
def dummyBlock : CacheBlock := { blocknum := INVALID, dirty := false, block := 0 }

/-- The global mutable state of the program: the slot array `cache`, the
recency order `orderArray` (contents are slot indices), and the simulated
disk `blockData`. -/
structure CacheState where
  cache : List CacheBlock
  orderArray : List Nat
  blockData : Int → Payload

/-- dblockread (cachetest.c lines 140-144): copy disk[blocknum] out. -/
def dblockread (disk : Int → Payload) (blocknum : Int) : Payload := disk blocknum

/-- dblockwrite (cachetest.c lines 145-149): copy a payload into disk[blocknum]. -/
def dblockwrite (disk : Int → Payload) (block : Payload) (blocknum : Int) : Int → Payload :=
  fun b => if b = blocknum then block else disk b

/-- The scan loop of putToEnd (cachetest.c lines 162-166): walk the whole
array and remember the LAST position holding `x`, starting from accumulator
`acc` (the C code initializes startPosition to 0). `i` is the position of
the head of `l` in the original array. -/
def startPosAux (l : List Nat) (x : Nat) (i acc : Nat) : Nat :=
  match l with
  | [] => acc
  | a :: rest => startPosAux rest x (i + 1) (if a = x then i else acc)

/-- startPosition as computed by putToEnd (cachetest.c lines 160-166). -/
def startPositionOf (l : List Nat) (x : Nat) : Nat := startPosAux l x 0 0

/-- putToEnd (cachetest.c lines 155-172, identical data behaviour in
part_000 lines 132-161): find the last position holding `indexTemp`
(0 if absent), shift every later entry up by one, and write `indexTemp`
into the final position. -/
def putToEnd (l : List Nat) (indexTemp : Nat) : List Nat :=
  let s := startPositionOf l indexTemp
  l.take s ++ l.drop (s + 1) ++ [indexTemp]

/-- cacheinit (cachetest.c lines 175-193) together with the zeroed static
storage: every slot is clean, INVALID, zero payload; the order array is the
identity `[0, 1, ..., n-1]`; the disk holds `disk0`. -/
def initState (n : Nat) (disk0 : Int → Payload) : CacheState :=
  { cache := List.replicate n dummyBlock
    orderArray := List.range n
    blockData := disk0 }

/-- The lookup scan shared by readblock and writeblock (cachetest.c lines
211-216): first index whose blocknum matches, none if absent. -/
def findBlock (l : List CacheBlock) (blocknum : Int) : Option Nat :=
  match l with
  | [] => none
  | cb :: rest =>
    if cb.blocknum = blocknum then some 0
    else (findBlock rest blocknum).map (fun j => j + 1)

/-- readblock (cachetest.c lines 196-265), sequential data semantics.
Returns the payload handed to the caller, the new state, and the list of
backing-store `store` calls `(blocknum, payload)` the operation issued, in
order.  On a miss the victim is the head of the order array; a dirty victim
is flushed under its OLD blocknum with its OLD payload before the slot is
overwritten (lines 222-229). -/
def readblock (s : CacheState) (blocknum : Int) :
    Payload × CacheState × List (Int × Payload) :=
  match findBlock s.cache blocknum with
  | some cacheFound =>
    let cb := s.cache.getD cacheFound dummyBlock
    (cb.block, { s with orderArray := putToEnd s.orderArray cacheFound }, [])
  | none =>
    let indexToReplace := s.orderArray.headI
    let victim := s.cache.getD indexToReplace dummyBlock
    let flushed :=
      if victim.dirty then
        (dblockwrite s.blockData victim.block victim.blocknum,
         [(victim.blocknum, victim.block)])
      else (s.blockData, [])
    let newPayload := dblockread flushed.1 blocknum
    (newPayload,
     { cache := s.cache.set indexToReplace
         { blocknum := blocknum, dirty := false, block := newPayload }
       orderArray := putToEnd s.orderArray indexToReplace
       blockData := flushed.1 },
     flushed.2)

/-- writeblock (cachetest.c lines 267-336), sequential data semantics.
Returns the new state and the store-call log.  Hit: overwrite the payload
in place and mark dirty (lines 305-314).  Miss: flush the dirty victim
under its old blocknum, then install the new blocknum, the caller's
payload, dirty = true (lines 289-303). -/
def writeblock (s : CacheState) (blocknum : Int) (payload : Payload) :
    CacheState × List (Int × Payload) :=
  match findBlock s.cache blocknum with
  | some cacheFound =>
    ({ cache := s.cache.set cacheFound
         { blocknum := blocknum, dirty := true, block := payload }
       orderArray := putToEnd s.orderArray cacheFound
       blockData := s.blockData }, [])
  | none =>
    let indexToReplace := s.orderArray.headI
    let victim := s.cache.getD indexToReplace dummyBlock
    let flushed :=
      if victim.dirty then
        (dblockwrite s.blockData victim.block victim.blocknum,
         [(victim.blocknum, victim.block)])
      else (s.blockData, [])
    ({ cache := s.cache.set indexToReplace
         { blocknum := blocknum, dirty := true, block := payload }
       orderArray := putToEnd s.orderArray indexToReplace
       blockData := flushed.1 }, flushed.2)

namespace Part000

/-- readblock of src/unnamed/part_000 (lines 182-238).  Differences from
cachetest.c: promote runs before the flush (line 201), and the miss path
never writes the requested blocknum into the victim slot (lines 197-220
contain no assignment to cache[indexToReplace].blocknum). -/
def readblock (s : CacheState) (blocknum : Int) :
    Payload × CacheState × List (Int × Payload) :=
  match findBlock s.cache blocknum with
  | some cacheFound =>
    let cb := s.cache.getD cacheFound dummyBlock
    (cb.block, { s with orderArray := putToEnd s.orderArray cacheFound }, [])
  | none =>
    let indexToReplace := s.orderArray.headI
    let order1 := putToEnd s.orderArray indexToReplace
    let victim := s.cache.getD indexToReplace dummyBlock
    let flushed :=
      if victim.dirty then
        (dblockwrite s.blockData victim.block victim.blocknum,
         [(victim.blocknum, victim.block)])
      else (s.blockData, [])
    let newPayload := dblockread flushed.1 blocknum
    (newPayload,
     { cache := s.cache.set indexToReplace
         { blocknum := victim.blocknum, dirty := false, block := newPayload }
       orderArray := order1
       blockData := flushed.1 },
     flushed.2)

/-- writeblock of src/unnamed/part_000 (lines 240-297): promote runs before
the flush, otherwise the same data behaviour as cachetest.c. -/
def writeblock (s : CacheState) (blocknum : Int) (payload : Payload) :
    CacheState × List (Int × Payload) :=
  match findBlock s.cache blocknum with
  | some cacheFound =>
    let order1 := putToEnd s.orderArray cacheFound
    ({ cache := s.cache.set cacheFound
         { blocknum := blocknum, dirty := true, block := payload }
       orderArray := order1
       blockData := s.blockData }, [])
  | none =>
    let indexToReplace := s.orderArray.headI
    let order1 := putToEnd s.orderArray indexToReplace
    let victim := s.cache.getD indexToReplace dummyBlock
    let flushed :=
      if victim.dirty then
        (dblockwrite s.blockData victim.block victim.blocknum,
         [(victim.blocknum, victim.block)])
      else (s.blockData, [])
    ({ cache := s.cache.set indexToReplace
         { blocknum := blocknum, dirty := true, block := payload }
       orderArray := order1
       blockData := flushed.1 }, flushed.2)

end Part000

/-- One client operation issued by a tester thread. -/
inductive Op where
  | read (blocknum : Int)
  | write (blocknum : Int) (payload : Payload)
deriving DecidableEq

/-- The block id an operation addresses. -/
def Op.blockId : Op → Int
  | Op.read b => b
  | Op.write b _ => b

/-- Run one operation of the cachetest.c revision, keeping only the state. -/
def applyOp (s : CacheState) (op : Op) : CacheState :=
  match op with
  | Op.read b => (readblock s b).2.1
  | Op.write b v => (writeblock s b v).1

/-- Run a sequence of operations of the cachetest.c revision. -/
def execOps (s : CacheState) (ops : List Op) : CacheState := ops.foldl applyOp s

namespace Part000

/-- Run one operation of the part_000 revision. -/
def applyOp (s : CacheState) (op : Op) : CacheState :=
  match op with
  | Op.read b => (Part000.readblock s b).2.1
  | Op.write b v => (Part000.writeblock s b v).1

/-- Run a sequence of operations of the part_000 revision. -/
def execOps (s : CacheState) (ops : List Op) : CacheState :=
  ops.foldl Part000.applyOp s

end Part000

/-- The specification-level disk contents after a sequence of operations:
each write overwrites its block, reads change nothing.  Starting map `m`. -/
def absFold (m : Int → Payload) (ops : List Op) : Int → Payload :=
  ops.foldl
    (fun m op =>
      match op with
      | Op.read _ => m
      | Op.write b v => fun x => if x = b then v else m x) m

/-- Most recently written payload for each block (the initial backing-store
content if never written). -/
def absDisk (disk0 : Int → Payload) (ops : List Op) : Int → Payload :=
  absFold disk0 ops

/-! Counter protocol of cachetest.c (the counted-access variant).
`orderCount` starts at 0 (static int, line 48). -/

/-- Initial value of orderCount (cachetest.c line 48, static storage). -/
def orderCountInit : Int := 0

/-- Whether the entry guard of readblock/writeblock (cachetest.c lines
204-209 and 275-280) makes the caller wait: the loop condition is
`while (orderCount == 0)`. -/
def entryGuardWaits (orderCount : Int) : Bool := decide (orderCount = 0)

/-- Value of orderCount after an operation passes the entry guard without
waiting: the increment sits INSIDE the wait loop (line 207), so a caller
that does not wait leaves the counter unchanged. -/
def entryGuardCounterIfNoWait (orderCount : Int) : Int := orderCount

/-- Counter update at operation completion (cachetest.c lines 245-250):
decrement, broadcast when it reaches zero. -/
def exitUpdateCounter (orderCount : Int) : Int := orderCount - 1

/-- Whether the guard in front of putToEnd (cachetest.c lines 252-257)
makes the caller wait: again `while (orderCount == 0)`. -/
def promoteEntryWaits (orderCount : Int) : Bool := decide (orderCount = 0)

/-- Uniqueness of non-INVALID block ids across a slot list. -/
def UniqL (l : List CacheBlock) : Prop :=
  ∀ i j (hi : i < l.length) (hj : j < l.length), i ≠ j →
    (l.get ⟨i, hi⟩).blocknum = (l.get ⟨j, hj⟩).blocknum →
    (l.get ⟨i, hi⟩).blocknum = INVALID

/-- Uniqueness of non-INVALID block ids across slots (spec section 8,
"Uniqueness"). -/
def Uniq (s : CacheState) : Prop := UniqL s.cache

/-- Structural invariant: the recency order is a permutation of the slot
indices, and no two slots share a non-INVALID block id. -/
def PInv (s : CacheState) : Prop :=
  s.orderArray.Perm (List.range s.cache.length) ∧ Uniq s

/-- Data invariant tying a state to the abstract disk map `m`: every slot
holding a valid block holds its latest payload; a clean such slot agrees
with the disk; uncached valid blocks agree with the disk. -/
def DataInv (s : CacheState) (m : Int → Payload) : Prop :=
  (∀ cb ∈ s.cache, 0 ≤ cb.blocknum → cb.block = m cb.blocknum) ∧
  (∀ cb ∈ s.cache, 0 ≤ cb.blocknum → cb.dirty = false →
     s.blockData cb.blocknum = m cb.blocknum) ∧
  (∀ b : Int, 0 ≤ b → (∀ cb ∈ s.cache, cb.blocknum ≠ b) → s.blockData b = m b)

/-- Full invariant used for read-after-write correctness. -/
def CacheInv (s : CacheState) (m : Int → Payload) : Prop :=
  PInv s ∧ DataInv s m

/-! Helper lemmas about the putToEnd scan. -/

theorem startPosAux_not_mem (l : List Nat) (x : Nat) (hx : x ∉ l) :
    ∀ i acc, startPosAux l x i acc = acc := by
  induction l with
  | nil => intro i acc; rfl
  | cons a rest ih =>
    intro i acc
    have hax : a ≠ x := fun h => hx (h ▸ List.mem_cons_self a rest)
    have hrest : x ∉ rest := fun h => hx (List.mem_cons_of_mem a h)
    simp only [startPosAux, if_neg hax, ih hrest]

theorem startPosAux_mem (l : List Nat) (x : Nat) (hx : x ∈ l) :
    ∀ i acc, ∃ j, ∃ hj : j < l.length,
      startPosAux l x i acc = i + j ∧ l.get ⟨j, hj⟩ = x := by
  induction l with
  | nil => cases hx
  | cons a rest ih =>
    intro i acc
    by_cases hr : x ∈ rest
    · obtain ⟨j, hj, heq, hget⟩ := ih hr (i + 1) (if a = x then i else acc)
      refine ⟨j + 1, by simpa using Nat.succ_lt_succ hj, ?_, ?_⟩
      · simpa [startPosAux, Nat.add_assoc, Nat.add_comm 1 j] using heq
      · simpa using hget
    · have hax : a = x := by
        rcases List.mem_cons.mp hx with h | h
        · exact h.symm
        · exact absurd h hr
      refine ⟨0, Nat.succ_pos _, ?_, by simpa using hax⟩
      simp only [startPosAux, if_pos hax, startPosAux_not_mem rest x hr,
        Nat.add_zero]

theorem startPosAux_append_last (l0 : List Nat) (x : Nat) :
    ∀ i acc, startPosAux (l0 ++ [x]) x i acc = i + l0.length := by
  induction l0 with
  | nil => intro i acc; simp [startPosAux]
  | cons a rest ih =>
    intro i acc
    show startPosAux (a :: (rest ++ [x])) x i acc = i + (a :: rest).length
    simp only [startPosAux]
    rw [ih (i + 1)]
    simp only [List.length_cons]
    omega

theorem startPosAux_nodup (l : List Nat) (x : Nat) (hnd : l.Nodup) (hx : x ∈ l) :
    ∀ i acc, startPosAux l x i acc = i + List.indexOf x l := by
  induction l with
  | nil => cases hx
  | cons a rest ih =>
    intro i acc
    rcases List.nodup_cons.mp hnd with ⟨ha, hndr⟩
    by_cases hax : a = x
    · have hxr : x ∉ rest := hax ▸ ha
      simp [startPosAux, if_pos hax, startPosAux_not_mem rest x hxr,
        List.indexOf_cons, hax]
    · have hxr : x ∈ rest := by
        rcases List.mem_cons.mp hx with h | h
        · exact absurd h.symm hax
        · exact h
      have hbeq : (a == x) = false := beq_false_of_ne hax
      simp only [startPosAux, if_neg hax, ih hndr hxr, List.indexOf_cons, hbeq,
        cond_false]
      omega

theorem startPositionOf_spec (l : List Nat) (x : Nat) (hx : x ∈ l) :
    ∃ hj : startPositionOf l x < l.length, l.get ⟨startPositionOf l x, hj⟩ = x := by
  obtain ⟨j, hj, heq, hget⟩ := startPosAux_mem l x hx 0 0
  simp only [startPositionOf, heq, Nat.zero_add]
  exact ⟨hj, hget⟩

theorem startPositionOf_append_last (l0 : List Nat) (x : Nat) :
    startPositionOf (l0 ++ [x]) x = l0.length := by
  simp [startPositionOf, startPosAux_append_last]

theorem startPositionOf_nodup (l : List Nat) (x : Nat) (hnd : l.Nodup) (hx : x ∈ l) :
    startPositionOf l x = List.indexOf x l := by
  simp [startPositionOf, startPosAux_nodup l x hnd hx]

/-- putToEnd leaves a list that already ends in the promoted index unchanged. -/
theorem putToEnd_append_last (l0 : List Nat) (x : Nat) :
    putToEnd (l0 ++ [x]) x = l0 ++ [x] := by
  simp [putToEnd, startPositionOf_append_last, List.take_left, List.drop_left]

/-- putToEnd permutes the list when the promoted index occurs in it. -/
theorem putToEnd_perm (l : List Nat) (x : Nat) (hx : x ∈ l) :
    (putToEnd l x).Perm l := by
  obtain ⟨hj, hget⟩ := startPositionOf_spec l x hx
  set s := startPositionOf l x with hs
  have hxs : l[s] = x := by simpa [List.get_eq_getElem] using hget
  have hdrop : l.drop s = x :: l.drop (s + 1) := by
    rw [List.drop_eq_getElem_cons hj, hxs]
  have h1 : putToEnd l x = l.take s ++ (l.drop (s + 1) ++ [x]) := by
    simp [putToEnd, hs]
  have h2 : (l.take s ++ (l.drop (s + 1) ++ [x])).Perm
      (l.take s ++ (x :: l.drop (s + 1))) :=
    List.Perm.append_left _ (List.perm_append_singleton x _)
  have h3 : l.take s ++ (x :: l.drop (s + 1)) = l := by
    rw [← hdrop]; exact List.take_append_drop s l
  rw [h1]
  exact List.Perm.trans h2 (by rw [h3])

/-- putToEnd is idempotent. -/
theorem putToEnd_putToEnd (l : List Nat) (x : Nat) :
    putToEnd (putToEnd l x) x = putToEnd l x := by
  have h : putToEnd l x = (l.take (startPositionOf l x) ++
      l.drop (startPositionOf l x + 1)) ++ [x] := by
    simp [putToEnd, List.append_assoc]
  rw [h, putToEnd_append_last]

/-- On a duplicate-free list, putToEnd is erase-and-append. -/
theorem putToEnd_eq_erase_append (l : List Nat) (x : Nat)
    (hnd : l.Nodup) (hx : x ∈ l) :
    putToEnd l x = l.erase x ++ [x] := by
  have hidx := startPositionOf_nodup l x hnd hx
  rw [putToEnd, hidx, ← List.eraseIdx_eq_take_drop_succ,
    List.eraseIdx_indexOf_eq_erase]

/-! Helper lemmas about the lookup scan. -/

theorem findBlock_some (l : List CacheBlock) (b : Int) (j : Nat)
    (h : findBlock l b = some j) :
    ∃ hj : j < l.length, (l.get ⟨j, hj⟩).blocknum = b := by
  induction l generalizing j with
  | nil => cases h
  | cons cb rest ih =>
    by_cases hcb : cb.blocknum = b
    · rw [findBlock, if_pos hcb] at h
      cases h
      exact ⟨Nat.succ_pos _, hcb⟩
    · rw [findBlock, if_neg hcb, Option.map_eq_some'] at h
      obtain ⟨j0, hj0, rfl⟩ := h
      obtain ⟨hlt, hget⟩ := ih j0 hj0
      exact ⟨Nat.succ_lt_succ hlt, hget⟩

theorem findBlock_none (l : List CacheBlock) (b : Int)
    (h : findBlock l b = none) : ∀ cb ∈ l, cb.blocknum ≠ b := by
  induction l with
  | nil => intro cb hcb; cases hcb
  | cons a rest ih =>
    by_cases ha : a.blocknum = b
    · rw [findBlock, if_pos ha] at h; cases h
    · intro cb hcb
      rw [findBlock, if_neg ha, Option.map_eq_none'] at h
      rcases List.mem_cons.mp hcb with rfl | hcb
      · exact ha
      · exact ih h cb hcb

/-! Helper lemmas about the recency order. -/

theorem headI_mem (l : List Nat) (hne : l ≠ []) : l.headI ∈ l := by
  cases l with
  | nil => exact absurd rfl hne
  | cons a t => exact List.mem_cons_self a t

theorem perm_range_nonempty {l : List Nat} {n : Nat}
    (h : l.Perm (List.range n)) (hn : 0 < n) : l ≠ [] := by
  intro hnil
  have := h.length_eq
  rw [hnil, List.length_nil, List.length_range] at this
  omega

theorem perm_range_headI_lt {l : List Nat} {n : Nat}
    (h : l.Perm (List.range n)) (hn : 0 < n) : l.headI < n := by
  have hmem : l.headI ∈ l := headI_mem l (perm_range_nonempty h hn)
  have := h.mem_iff.mp hmem
  simpa [List.mem_range] using this

/-! Preservation of the uniqueness invariant under slot updates. -/

theorem uniqL_set_fresh (l : List CacheBlock) (h0 : Nat) (nb : CacheBlock)
    (hfresh : ∀ cb ∈ l, cb.blocknum ≠ nb.blocknum)
    (hu : UniqL l) : UniqL (l.set h0 nb) := by
  intro i j hi hj hij heq
  have hi2 : i < l.length := by simpa using hi
  have hj2 : j < l.length := by simpa using hj
  simp only [List.get_eq_getElem, List.getElem_set] at heq ⊢
  by_cases hhi : h0 = i
  · rw [if_pos hhi] at heq ⊢
    rw [if_neg (by omega)] at heq
    exact absurd heq.symm (hfresh _ (List.getElem_mem hj2))
  · rw [if_neg hhi] at heq ⊢
    by_cases hhj : h0 = j
    · rw [if_pos hhj] at heq
      exact absurd heq (hfresh _ (List.getElem_mem hi2))
    · rw [if_neg hhj] at heq
      have h3 := hu i j hi2 hj2 hij
      simp only [List.get_eq_getElem] at h3
      exact h3 heq

theorem uniqL_set_hit (l : List CacheBlock) (j0 : Nat) (hj0 : j0 < l.length)
    (nb : CacheBlock) (hsame : nb.blocknum = (l.get ⟨j0, hj0⟩).blocknum)
    (hu : UniqL l) : UniqL (l.set j0 nb) := by
  intro i j hi hj hij heq
  have hi2 : i < l.length := by simpa using hi
  have hj2 : j < l.length := by simpa using hj
  simp only [List.get_eq_getElem] at hsame
  simp only [List.get_eq_getElem, List.getElem_set] at heq ⊢
  by_cases hhi : j0 = i
  · rw [if_pos hhi] at heq ⊢
    rw [if_neg (by omega)] at heq
    have h3 := hu j j0 hj2 hj0 (by omega)
    simp only [List.get_eq_getElem] at h3
    rw [heq]
    exact h3 (by rw [← heq, hsame])
  · rw [if_neg hhi] at heq ⊢
    by_cases hhj : j0 = j
    · rw [if_pos hhj] at heq
      have h3 := hu i j0 hi2 hj0 (by omega)
      simp only [List.get_eq_getElem] at h3
      exact h3 (by rw [heq, hsame])
    · rw [if_neg hhj] at heq
      have h3 := hu i j hi2 hj2 hij
      simp only [List.get_eq_getElem] at h3
      exact h3 heq

/-! Preservation of the structural invariant by whole operations. -/

theorem length_applyOp (s : CacheState) (op : Op) :
    (applyOp s op).cache.length = s.cache.length := by
  cases op with
  | read b =>
    cases hf : findBlock s.cache b <;>
      simp [applyOp, readblock, hf, List.length_set]
  | write b v =>
    cases hf : findBlock s.cache b <;>
      simp [applyOp, writeblock, hf, List.length_set]

theorem pinv_applyOp (s : CacheState) (op : Op)
    (h : PInv s) (hn : 0 < s.cache.length) : PInv (applyOp s op) := by
  obtain ⟨hperm, huniq⟩ := h
  have hne := perm_range_nonempty hperm hn
  have hhd_mem : s.orderArray.headI ∈ s.orderArray := headI_mem _ hne
  have hmiss_perm := (putToEnd_perm s.orderArray s.orderArray.headI hhd_mem).trans hperm
  cases op with
  | read b =>
    cases hf : findBlock s.cache b with
    | some j =>
      obtain ⟨hj, hgj⟩ := findBlock_some s.cache b j hf
      have hjmem : j ∈ s.orderArray := hperm.mem_iff.mpr (List.mem_range.mpr hj)
      simp only [applyOp, readblock, hf]
      exact ⟨(putToEnd_perm _ _ hjmem).trans hperm, huniq⟩
    | none =>
      simp only [applyOp, readblock, hf]
      refine ⟨by simpa [List.length_set] using hmiss_perm, ?_⟩
      exact uniqL_set_fresh _ _ _
        (fun cb hcb => findBlock_none s.cache b hf cb hcb) huniq
  | write b v =>
    cases hf : findBlock s.cache b with
    | some j =>
      obtain ⟨hj, hgj⟩ := findBlock_some s.cache b j hf
      have hjmem : j ∈ s.orderArray := hperm.mem_iff.mpr (List.mem_range.mpr hj)
      simp only [applyOp, writeblock, hf]
      refine ⟨by simpa [List.length_set] using (putToEnd_perm _ _ hjmem).trans hperm, ?_⟩
      exact uniqL_set_hit _ j hj _ hgj.symm huniq
    | none =>
      simp only [applyOp, writeblock, hf]
      refine ⟨by simpa [List.length_set] using hmiss_perm, ?_⟩
      exact uniqL_set_fresh _ _ _
        (fun cb hcb => findBlock_none s.cache b hf cb hcb) huniq

/-! Small facts about the simulated disk and slot membership. -/

theorem dblockwrite_ne (disk : Int → Payload) (p : Payload) (x b : Int)
    (h : b ≠ x) : dblockwrite disk p x b = disk b := if_neg h

theorem dblockwrite_self (disk : Int → Payload) (p : Payload) (x : Int) :
    dblockwrite disk p x x = p := if_pos rfl

theorem uniqL_ne_of_mem (l : List CacheBlock) (hu : UniqL l) (h0 : Nat)
    (hh0 : h0 < l.length) (cb : CacheBlock) (hcb : cb ∈ l)
    (hne : cb ≠ l.get ⟨h0, hh0⟩) (hvalid : 0 ≤ cb.blocknum) :
    cb.blocknum ≠ (l.get ⟨h0, hh0⟩).blocknum := by
  intro heq
  obtain ⟨⟨k, hk⟩, hget⟩ := List.mem_iff_get.mp hcb
  by_cases hkh : k = h0
  · subst hkh
    exact hne hget.symm
  · have h3 := hu k h0 hk hh0 hkh
    rw [hget] at h3
    have hinv := h3 heq
    rw [hinv] at hvalid
    norm_num [INVALID] at hvalid

theorem forall_mem_of_set (l : List CacheBlock) (h0 : Nat) (hh0 : h0 < l.length)
    (nb : CacheBlock) (P : CacheBlock → Prop)
    (hset : ∀ cb ∈ l.set h0 nb, P cb) (hvic : P (l.get ⟨h0, hh0⟩)) :
    ∀ cb ∈ l, P cb := by
  intro cb hcb
  obtain ⟨⟨k, hk⟩, hget⟩ := List.mem_iff_get.mp hcb
  by_cases hkh : k = h0
  · subst hkh
    exact hget ▸ hvic
  · apply hset
    have hks : (l.set h0 nb).get ⟨k, by simpa using hk⟩ = cb := by
      rw [List.get_eq_getElem, List.getElem_set_ne (Ne.symm hkh)]
      simpa [List.get_eq_getElem] using hget
    rw [← hks]
    exact List.get_mem _ _ _

theorem mem_set_self (l : List CacheBlock) (h0 : Nat) (hh0 : h0 < l.length)
    (nb : CacheBlock) : nb ∈ l.set h0 nb := by
  have hlen : h0 < (l.set h0 nb).length := by simpa using hh0
  have h2 : (l.set h0 nb).get ⟨h0, hlen⟩ = nb := by
    rw [List.get_eq_getElem, List.getElem_set_self]
  have hm := List.get_mem (l.set h0 nb) h0 hlen
  rwa [h2] at hm

/-! The value handed back by readblock under the data invariant. -/

theorem readblock_returns (s : CacheState) (m : Int → Payload) (b : Int)
    (hb : 0 ≤ b) (hP : PInv s) (hD : DataInv s m) (hn : 0 < s.cache.length) :
    (readblock s b).1 = m b := by
  obtain ⟨hperm, huniq⟩ := hP
  obtain ⟨hD1, hD2, hD3⟩ := hD
  cases hf : findBlock s.cache b with
  | some j =>
    obtain ⟨hj, hgj⟩ := findBlock_some s.cache b j hf
    simp only [readblock, hf]
    rw [List.getD_eq_getElem s.cache dummyBlock hj]
    simp only [List.get_eq_getElem] at hgj
    have h1 := hD1 _ (List.getElem_mem hj) (by rw [hgj]; exact hb)
    rw [h1, hgj]
  | none =>
    have hnone := findBlock_none s.cache b hf
    have hh0 : s.orderArray.headI < s.cache.length := perm_range_headI_lt hperm hn
    simp only [readblock, hf]
    rw [List.getD_eq_getElem s.cache dummyBlock hh0]
    have hvb : s.cache[s.orderArray.headI].blocknum ≠ b :=
      hnone _ (List.getElem_mem hh0)
    have hdisk : s.blockData b = m b := hD3 b hb hnone
    cases hd : s.cache[s.orderArray.headI].dirty with
    | false =>
      simp only [hd, Bool.false_eq_true, if_false, dblockread]
      exact hdisk
    | true =>
      simp only [hd, if_true, dblockread]
      rw [dblockwrite_ne _ _ _ _ (Ne.symm hvb)]
      exact hdisk

/-! Preservation of the data invariant. -/

theorem dataInv_read (s : CacheState) (m : Int → Payload) (b : Int)
    (hb : 0 ≤ b) (hP : PInv s) (hD : DataInv s m) (hn : 0 < s.cache.length) :
    DataInv (readblock s b).2.1 m := by
  obtain ⟨hperm, huniq⟩ := hP
  obtain ⟨hD1, hD2, hD3⟩ := hD
  cases hf : findBlock s.cache b with
  | some j =>
    simp only [readblock, hf]
    exact ⟨hD1, hD2, hD3⟩
  | none =>
    have hnone := findBlock_none s.cache b hf
    have hh0 : s.orderArray.headI < s.cache.length := perm_range_headI_lt hperm hn
    have hvmem : s.cache[s.orderArray.headI] ∈ s.cache := List.getElem_mem hh0
    have hvb : s.cache[s.orderArray.headI].blocknum ≠ b := hnone _ hvmem
    have hdisk : s.blockData b = m b := hD3 b hb hnone
    have hvget : s.cache.get ⟨s.orderArray.headI, hh0⟩ =
        s.cache[s.orderArray.headI] := List.get_eq_getElem _ _
    simp only [readblock, hf]
    rw [List.getD_eq_getElem s.cache dummyBlock hh0]
    cases hd : s.cache[s.orderArray.headI].dirty with
    | false =>
      simp only [hd, Bool.false_eq_true, if_false, dblockread]
      refine ⟨?_, ?_, ?_⟩
      · intro cb hmem hvalid
        rcases List.mem_or_eq_of_mem_set hmem with hold | rfl
        · exact hD1 cb hold hvalid
        · exact hdisk
      · intro cb hmem hvalid hclean
        rcases List.mem_or_eq_of_mem_set hmem with hold | rfl
        · exact hD2 cb hold hvalid hclean
        · exact hdisk
      · intro b0 hb0 hno
        by_cases hbb : b0 = b
        · subst hbb
          exact absurd rfl (hno _ (mem_set_self s.cache _ hh0 _))
        · by_cases hvb0 : s.cache[s.orderArray.headI].blocknum = b0
          · have h2 := hD2 _ hvmem (by rw [hvb0]; exact hb0) hd
            rw [hvb0] at h2
            exact h2
          · refine hD3 b0 hb0 (forall_mem_of_set s.cache _ hh0 _ _ hno ?_)
            rw [hvget]
            exact hvb0
    | true =>
      simp only [hd, if_true, dblockread]
      have hwr_b : dblockwrite s.blockData s.cache[s.orderArray.headI].block
          s.cache[s.orderArray.headI].blocknum b = s.blockData b :=
        dblockwrite_ne _ _ _ _ (Ne.symm hvb)
      refine ⟨?_, ?_, ?_⟩
      · intro cb hmem hvalid
        rcases List.mem_or_eq_of_mem_set hmem with hold | rfl
        · exact hD1 cb hold hvalid
        · exact hwr_b.trans hdisk
      · intro cb hmem hvalid hclean
        rcases List.mem_or_eq_of_mem_set hmem with hold | rfl
        · have hcv : cb ≠ s.cache.get ⟨s.orderArray.headI, hh0⟩ := by
            intro hcv
            rw [hcv, hvget, hd] at hclean
            cases hclean
          have hneq := uniqL_ne_of_mem s.cache huniq _ hh0 cb hold hcv hvalid
          rw [hvget] at hneq
          have hwr := dblockwrite_ne s.blockData
            s.cache[s.orderArray.headI].block
            s.cache[s.orderArray.headI].blocknum cb.blocknum hneq
          exact hwr.trans (hD2 cb hold hvalid hclean)
        · exact hwr_b.trans hdisk
      · intro b0 hb0 hno
        by_cases hbb : b0 = b
        · subst hbb
          exact absurd rfl (hno _ (mem_set_self s.cache _ hh0 _))
        · by_cases hvb0 : s.cache[s.orderArray.headI].blocknum = b0
          · have h1 := hD1 _ hvmem (by rw [hvb0]; exact hb0)
            have hgoal : dblockwrite s.blockData
                s.cache[s.orderArray.headI].block
                s.cache[s.orderArray.headI].blocknum b0 = m b0 := by
              rw [← hvb0, dblockwrite_self]
              exact h1
            exact hgoal
          · have hwr := dblockwrite_ne s.blockData
              s.cache[s.orderArray.headI].block
              s.cache[s.orderArray.headI].blocknum b0 (fun h => hvb0 h.symm)
            refine hwr.trans (hD3 b0 hb0
              (forall_mem_of_set s.cache _ hh0 _ _ hno ?_))
            rw [hvget]
            exact hvb0

theorem mem_set_cases (l : List CacheBlock) (j : Nat) (nb : CacheBlock)
    (cb : CacheBlock) (hmem : cb ∈ l.set j nb) (hj : j < l.length) :
    cb = nb ∨ ∃ k, ∃ hk : k < l.length, k ≠ j ∧ cb = l.get ⟨k, hk⟩ := by
  obtain ⟨⟨k, hk⟩, hget⟩ := List.mem_iff_get.mp hmem
  have hk2 : k < l.length := by simpa using hk
  by_cases hkj : k = j
  · left
    rw [← hget, List.get_eq_getElem]
    subst hkj
    rw [List.getElem_set_self]
  · right
    refine ⟨k, hk2, hkj, ?_⟩
    rw [← hget, List.get_eq_getElem, List.getElem_set_ne (Ne.symm hkj),
      List.get_eq_getElem]

theorem blocknum_ne_of_pos_ne (l : List CacheBlock) (hu : UniqL l)
    (k j : Nat) (hk : k < l.length) (hj : j < l.length) (hkj : k ≠ j)
    (hvalid : 0 ≤ (l.get ⟨k, hk⟩).blocknum) :
    (l.get ⟨k, hk⟩).blocknum ≠ (l.get ⟨j, hj⟩).blocknum := by
  intro heq
  have h3 := hu k j hk hj hkj heq
  rw [h3] at hvalid
  norm_num [INVALID] at hvalid

theorem dataInv_write (s : CacheState) (m : Int → Payload) (b : Int) (v : Payload)
    (hb : 0 ≤ b) (hP : PInv s) (hD : DataInv s m) (hn : 0 < s.cache.length) :
    DataInv (writeblock s b v).1 (fun x => if x = b then v else m x) := by
  obtain ⟨hperm, huniq⟩ := hP
  obtain ⟨hD1, hD2, hD3⟩ := hD
  cases hf : findBlock s.cache b with
  | some j =>
    obtain ⟨hj, hgj⟩ := findBlock_some s.cache b j hf
    simp only [writeblock, hf]
    refine ⟨?_, ?_, ?_⟩
    · intro cb hmem hvalid
      rcases mem_set_cases s.cache j _ cb hmem hj with rfl | ⟨k, hk, hkj, rfl⟩
      · show v = if b = b then v else m b
        rw [if_pos rfl]
      · have hne_b : (s.cache.get ⟨k, hk⟩).blocknum ≠ b := by
          rw [← hgj]
          exact blocknum_ne_of_pos_ne s.cache huniq k j hk hj hkj hvalid
        show (s.cache.get ⟨k, hk⟩).block =
          if (s.cache.get ⟨k, hk⟩).blocknum = b then v
          else m (s.cache.get ⟨k, hk⟩).blocknum
        rw [if_neg hne_b]
        exact hD1 _ (List.get_mem _ _ _) hvalid
    · intro cb hmem hvalid hclean
      rcases mem_set_cases s.cache j _ cb hmem hj with rfl | ⟨k, hk, hkj, rfl⟩
      · cases hclean
      · have hne_b : (s.cache.get ⟨k, hk⟩).blocknum ≠ b := by
          rw [← hgj]
          exact blocknum_ne_of_pos_ne s.cache huniq k j hk hj hkj hvalid
        show s.blockData (s.cache.get ⟨k, hk⟩).blocknum =
          if (s.cache.get ⟨k, hk⟩).blocknum = b then v
          else m (s.cache.get ⟨k, hk⟩).blocknum
        rw [if_neg hne_b]
        exact hD2 _ (List.get_mem _ _ _) hvalid hclean
    · intro b0 hb0 hno
      by_cases hbb : b0 = b
      · subst hbb
        exact absurd rfl (hno _ (mem_set_self s.cache _ hj _))
      · show s.blockData b0 = if b0 = b then v else m b0
        rw [if_neg hbb]
        refine hD3 b0 hb0 (forall_mem_of_set s.cache _ hj _ _ hno ?_)
        rw [hgj]
        exact fun h => hbb h.symm
  | none =>
    have hnone := findBlock_none s.cache b hf
    have hh0 : s.orderArray.headI < s.cache.length := perm_range_headI_lt hperm hn
    have hvmem : s.cache[s.orderArray.headI] ∈ s.cache := List.getElem_mem hh0
    have hvb : s.cache[s.orderArray.headI].blocknum ≠ b := hnone _ hvmem
    have hvget : s.cache.get ⟨s.orderArray.headI, hh0⟩ =
        s.cache[s.orderArray.headI] := List.get_eq_getElem _ _
    simp only [writeblock, hf]
    rw [List.getD_eq_getElem s.cache dummyBlock hh0]
    cases hd : s.cache[s.orderArray.headI].dirty with
    | false =>
      simp only [hd, Bool.false_eq_true, if_false]
      refine ⟨?_, ?_, ?_⟩
      · intro cb hmem hvalid
        rcases List.mem_or_eq_of_mem_set hmem with hold | rfl
        · have hne_b : cb.blocknum ≠ b := hnone cb hold
          show cb.block = if cb.blocknum = b then v else m cb.blocknum
          rw [if_neg hne_b]
          exact hD1 cb hold hvalid
        · show v = if b = b then v else m b
          rw [if_pos rfl]
      · intro cb hmem hvalid hclean
        rcases List.mem_or_eq_of_mem_set hmem with hold | rfl
        · have hne_b : cb.blocknum ≠ b := hnone cb hold
          show s.blockData cb.blocknum =
            if cb.blocknum = b then v else m cb.blocknum
          rw [if_neg hne_b]
          exact hD2 cb hold hvalid hclean
        · cases hclean
      · intro b0 hb0 hno
        by_cases hbb : b0 = b
        · subst hbb
          exact absurd rfl (hno _ (mem_set_self s.cache _ hh0 _))
        · show s.blockData b0 = if b0 = b then v else m b0
          rw [if_neg hbb]
          by_cases hvb0 : s.cache[s.orderArray.headI].blocknum = b0
          · have h2 := hD2 _ hvmem (by rw [hvb0]; exact hb0) hd
            rw [hvb0] at h2
            exact h2
          · refine hD3 b0 hb0 (forall_mem_of_set s.cache _ hh0 _ _ hno ?_)
            rw [hvget]
            exact hvb0
    | true =>
      simp only [hd, if_true]
      refine ⟨?_, ?_, ?_⟩
      · intro cb hmem hvalid
        rcases List.mem_or_eq_of_mem_set hmem with hold | rfl
        · have hne_b : cb.blocknum ≠ b := hnone cb hold
          show cb.block = if cb.blocknum = b then v else m cb.blocknum
          rw [if_neg hne_b]
          exact hD1 cb hold hvalid
        · show v = if b = b then v else m b
          rw [if_pos rfl]
      · intro cb hmem hvalid hclean
        rcases List.mem_or_eq_of_mem_set hmem with hold | rfl
        · have hne_b : cb.blocknum ≠ b := hnone cb hold
          have hcv : cb ≠ s.cache.get ⟨s.orderArray.headI, hh0⟩ := by
            intro hcv
            rw [hcv, hvget, hd] at hclean
            cases hclean
          have hneq := uniqL_ne_of_mem s.cache huniq _ hh0 cb hold hcv hvalid
          rw [hvget] at hneq
          have hwr := dblockwrite_ne s.blockData
            s.cache[s.orderArray.headI].block
            s.cache[s.orderArray.headI].blocknum cb.blocknum hneq
          show dblockwrite s.blockData s.cache[s.orderArray.headI].block
              s.cache[s.orderArray.headI].blocknum cb.blocknum =
            if cb.blocknum = b then v else m cb.blocknum
          rw [if_neg hne_b, hwr]
          exact hD2 cb hold hvalid hclean
        · cases hclean
      · intro b0 hb0 hno
        by_cases hbb : b0 = b
        · subst hbb
          exact absurd rfl (hno _ (mem_set_self s.cache _ hh0 _))
        · show dblockwrite s.blockData s.cache[s.orderArray.headI].block
              s.cache[s.orderArray.headI].blocknum b0 =
            if b0 = b then v else m b0
          rw [if_neg hbb]
          by_cases hvb0 : s.cache[s.orderArray.headI].blocknum = b0
          · have h1 := hD1 _ hvmem (by rw [hvb0]; exact hb0)
            rw [← hvb0, dblockwrite_self]
            exact h1
          · rw [dblockwrite_ne _ _ _ _ (fun h => hvb0 h.symm)]
            refine hD3 b0 hb0 (forall_mem_of_set s.cache _ hh0 _ _ hno ?_)
            rw [hvget]
            exact hvb0

/-! Invariants hold initially and along any run. -/

theorem cacheInv_initState (n : Nat) (disk0 : Int → Payload) :
    CacheInv (initState n disk0) disk0 := by
  refine ⟨⟨?_, ?_⟩, ?_, ?_, ?_⟩
  · simp [initState]
  · intro i j hi hj hij heq
    simp only [initState] at hi ⊢
    simp only [List.get_eq_getElem, List.getElem_replicate]
    rfl
  · intro cb hcb hvalid
    rw [List.eq_of_mem_replicate hcb] at hvalid
    norm_num [dummyBlock, INVALID] at hvalid
  · intro cb hcb hvalid hclean
    rw [List.eq_of_mem_replicate hcb] at hvalid
    norm_num [dummyBlock, INVALID] at hvalid
  · intro b0 hb0 hno
    rfl

theorem pinv_execOps (ops : List Op) : ∀ s : CacheState, PInv s →
    0 < s.cache.length →
    PInv (execOps s ops) ∧ (execOps s ops).cache.length = s.cache.length := by
  induction ops with
  | nil => intro s h hn; exact ⟨h, rfl⟩
  | cons op rest ih =>
    intro s h hn
    have hstep := pinv_applyOp s op h hn
    have hlen := length_applyOp s op
    have hrec := ih (applyOp s op) hstep (by omega)
    refine ⟨hrec.1, ?_⟩
    have h2 : (execOps s (op :: rest)).cache.length =
        (applyOp s op).cache.length := hrec.2
    exact h2.trans hlen

theorem cacheInv_applyOp (s : CacheState) (m : Int → Payload) (op : Op)
    (hb : 0 ≤ op.blockId) (hI : CacheInv s m) (hn : 0 < s.cache.length) :
    CacheInv (applyOp s op) (absFold m [op]) := by
  obtain ⟨hP, hD⟩ := hI
  cases op with
  | read b => exact ⟨pinv_applyOp s _ hP hn, dataInv_read s m b hb hP hD hn⟩
  | write b v => exact ⟨pinv_applyOp s _ hP hn, dataInv_write s m b v hb hP hD hn⟩

theorem cacheInv_execOps (ops : List Op) : ∀ (s : CacheState) (m : Int → Payload),
    CacheInv s m → 0 < s.cache.length → (∀ op ∈ ops, 0 ≤ op.blockId) →
    CacheInv (execOps s ops) (absFold m ops) ∧
    (execOps s ops).cache.length = s.cache.length := by
  induction ops with
  | nil => intro s m hI hn hops; exact ⟨hI, rfl⟩
  | cons op rest ih =>
    intro s m hI hn hops
    have hop : 0 ≤ op.blockId := hops op (List.mem_cons_self _ _)
    have hstep := cacheInv_applyOp s m op hop hI hn
    have hlen := length_applyOp s op
    have hrec := ih (applyOp s op) (absFold m [op]) hstep (by omega)
      (fun o ho => hops o (List.mem_cons_of_mem _ ho))
    refine ⟨hrec.1, ?_⟩
    have h2 : (execOps s (op :: rest)).cache.length =
        (applyOp s op).cache.length := hrec.2
    exact h2.trans hlen

/-! putToEnd on the head of a duplicate-free order array. -/

theorem putToEnd_headI (l : List Nat) (hnd : l.Nodup) (hne : l ≠ []) :
    putToEnd l l.headI = l.tail ++ [l.headI] := by
  cases l with
  | nil => exact absurd rfl hne
  | cons a t =>
    have hidx : startPositionOf (a :: t) a = 0 := by
      rw [startPositionOf_nodup _ _ hnd (List.mem_cons_self a t),
        List.indexOf_cons_self]
    show putToEnd (a :: t) a = t ++ [a]
    simp [putToEnd, hidx]

/-- A list ending in x is left unchanged by putToEnd x. -/
theorem putToEnd_of_getLast (l : List Nat) (x : Nat)
    (hlast : l.getLast? = some x) : putToEnd l x = l := by
  have hne : l ≠ [] := by intro h; rw [h] at hlast; cases hlast
  have hx : l.getLast hne = x := by
    rw [List.getLast?_eq_getLast l hne] at hlast
    exact Option.some_injective _ hlast
  have hdecomp : l.dropLast ++ [x] = l := by
    rw [← hx]
    exact List.dropLast_append_getLast hne
  rw [← hdecomp, putToEnd_append_last]

/-! The two revisions agree on writeblock. -/

theorem writeblock_eq_part000 (s : CacheState) (b : Int) (v : Payload) :
    Part000.writeblock s b v = writeblock s b v := by
  cases hf : findBlock s.cache b <;>
    simp [writeblock, Part000.writeblock, hf]

/-- getD after setting two records that agree on dirty and payload. -/
theorem getD_set_fields (l : List CacheBlock) (h0 i : Nat)
    (nb1 nb2 : CacheBlock) (hd : nb1.dirty = nb2.dirty)
    (hblk : nb1.block = nb2.block) :
    ((l.set h0 nb1).getD i dummyBlock).dirty =
      ((l.set h0 nb2).getD i dummyBlock).dirty ∧
    ((l.set h0 nb1).getD i dummyBlock).block =
      ((l.set h0 nb2).getD i dummyBlock).block := by
  by_cases hlt : i < l.length
  · have hlt1 : i < (l.set h0 nb1).length := by simpa using hlt
    have hlt2 : i < (l.set h0 nb2).length := by simpa using hlt
    rw [List.getD_eq_getElem _ _ hlt1, List.getD_eq_getElem _ _ hlt2,
      List.getElem_set, List.getElem_set]
    by_cases hh : h0 = i
    · rw [if_pos hh, if_pos hh]
      exact ⟨hd, hblk⟩
    · rw [if_neg hh, if_neg hh]
      exact ⟨rfl, rfl⟩
  · rw [List.getD_eq_default _ _ (by simpa using Nat.le_of_not_lt hlt),
      List.getD_eq_default _ _ (by simpa using Nat.le_of_not_lt hlt)]
    exact ⟨rfl, rfl⟩

/-- The two revisions agree on everything a single readblock call produces
except the victim slot's blocknum field. -/
theorem readblock_agree (s : CacheState) (b : Int) :
    (Part000.readblock s b).1 = (readblock s b).1 ∧
    (Part000.readblock s b).2.1.blockData = (readblock s b).2.1.blockData ∧
    (Part000.readblock s b).2.1.orderArray = (readblock s b).2.1.orderArray ∧
    (Part000.readblock s b).2.2 = (readblock s b).2.2 ∧
    ∀ i : Nat,
      ((Part000.readblock s b).2.1.cache.getD i dummyBlock).dirty =
        ((readblock s b).2.1.cache.getD i dummyBlock).dirty ∧
      ((Part000.readblock s b).2.1.cache.getD i dummyBlock).block =
        ((readblock s b).2.1.cache.getD i dummyBlock).block := by
  cases hf : findBlock s.cache b with
  | some j =>
    simp [readblock, Part000.readblock, hf]
  | none =>
    simp only [readblock, Part000.readblock, hf, true_and, and_true]
    intro i
    exact getD_set_fields _ _ _ _ _ rfl rfl

/-! Claim theorems. -/

/-- C1: for every finite sequential sequence of valid-block-id operations
starting from the initialized cache, readblock returns the most recently
written payload for the requested block (the initial backing-store content
if the block was never written), whether served from a cache slot or from
the backing store; in particular a write immediately followed by a read of
the same block returns the written payload. -/
theorem c1_read_after_write (n : Nat) (disk0 : Int → Payload) (ops : List Op)
    (b : Int) (hn : 0 < n) (hops : ∀ op ∈ ops, 0 ≤ op.blockId) (hb : 0 ≤ b) :
    (readblock (execOps (initState n disk0) ops) b).1 = absDisk disk0 ops b := by
  have hn0 : 0 < (initState n disk0).cache.length := by
    simpa [initState] using hn
  have h := cacheInv_execOps ops (initState n disk0) disk0
    (cacheInv_initState n disk0) hn0 hops
  have hlen : 0 < (execOps (initState n disk0) ops).cache.length := by
    rw [h.2]; exact hn0
  exact readblock_returns _ _ b hb h.1.1 h.1.2 hlen

/-- Witness for C1 at a concrete input: write block 5 := 42 on a
capacity-2 cache over a zeroed backing store, then read block 5. -/
theorem c1_read_after_write_witness :
    0 < 2 ∧ (∀ op ∈ [Op.write 5 42], 0 ≤ op.blockId) ∧ 0 ≤ (5 : Int) ∧
    (readblock (execOps (initState 2 (fun _ => 0)) [Op.write 5 42]) 5).1 =
      absDisk (fun _ => 0) [Op.write 5 42] 5 :=
  ⟨by norm_num, by decide, by norm_num,
   c1_read_after_write 2 (fun _ => 0) [Op.write 5 42] 5 (by norm_num)
     (by decide) (by norm_num)⟩

/-- C3: in every state reachable from the initialized cache by completed
read and write operations, no two cache slots hold the same non-INVALID
block id. -/
theorem c3_uniqueness (n : Nat) (disk0 : Int → Payload) (ops : List Op)
    (hn : 0 < n) : Uniq (execOps (initState n disk0) ops) := by
  have hn0 : 0 < (initState n disk0).cache.length := by
    simpa [initState] using hn
  exact (pinv_execOps ops (initState n disk0)
    (cacheInv_initState n disk0).1 hn0).1.2

/-- Witness for C3 at a concrete input. -/
theorem c3_uniqueness_witness :
    0 < 2 ∧ Uniq (execOps (initState 2 (fun x => x)) [Op.write 3 7, Op.read 9]) :=
  ⟨by norm_num,
   c3_uniqueness 2 (fun x => x) [Op.write 3 7, Op.read 9] (by norm_num)⟩

/-- C4: the recency order starts as the identity sequence 0..n-1, putToEnd
maps a permutation of 0..n-1 containing the promoted index to another such
permutation, and the order array of every reachable state is a permutation
of 0..n-1. -/
theorem c4_recency_permutation (n : Nat) (disk0 : Int → Payload)
    (ops : List Op) (hn : 0 < n) :
    (initState n disk0).orderArray = List.range n ∧
    (∀ (l : List Nat) (x : Nat), l.Perm (List.range n) → x ∈ l →
      (putToEnd l x).Perm (List.range n)) ∧
    (execOps (initState n disk0) ops).orderArray.Perm (List.range n) := by
  have hn0 : 0 < (initState n disk0).cache.length := by
    simpa [initState] using hn
  refine ⟨rfl, ?_, ?_⟩
  · intro l x hp hx
    exact (putToEnd_perm l x hx).trans hp
  · have h := pinv_execOps ops (initState n disk0)
      (cacheInv_initState n disk0).1 hn0
    have hperm := h.1.1
    rw [h.2] at hperm
    simpa [initState] using hperm

/-- Witness for C4 at a concrete input. -/
theorem c4_recency_permutation_witness :
    0 < 2 ∧
    (initState 2 (fun x => x)).orderArray = List.range 2 ∧
    (putToEnd [1, 0] 1).Perm (List.range 2) ∧
    (execOps (initState 2 (fun x => x)) [Op.write 3 7, Op.read 9]).orderArray.Perm
      (List.range 2) := by
  have h := c4_recency_permutation 2 (fun x => x) [Op.write 3 7, Op.read 9]
    (by norm_num)
  exact ⟨by norm_num, h.1, h.2.1 [1, 0] 1 (by decide) (by decide), h.2.2⟩

/-- C9: putToEnd is idempotent on any order array that is a permutation of
0..n-1 and any slot index occurring in it; in particular, promoting the
index already at the tail leaves the array unchanged. -/
theorem c9_putToEnd_idempotent (n : Nat) (l : List Nat) (i : Nat)
    (hperm : l.Perm (List.range n)) (hi : i ∈ l) :
    putToEnd (putToEnd l i) i = putToEnd l i ∧
    (l.getLast? = some i → putToEnd l i = l) :=
  ⟨putToEnd_putToEnd l i, fun hlast => putToEnd_of_getLast l i hlast⟩

/-- Witness for C9 at a concrete input. -/
theorem c9_putToEnd_idempotent_witness :
    putToEnd (putToEnd [0, 1, 2] 1) 1 = putToEnd [0, 1, 2] 1 ∧
    putToEnd [0, 1, 2] 2 = [0, 1, 2] := by
  have h1 := c9_putToEnd_idempotent 3 [0, 1, 2] 1 (by decide) (by decide)
  have h2 := c9_putToEnd_idempotent 3 [0, 1, 2] 2 (by decide) (by decide)
  exact ⟨h1.1, h2.2 (by decide)⟩

/-- C7: the counted-access guard of cachetest.c, evaluated on its own
initial state.  The guard loop waits while orderCount equals 0 — which is
the initial, quiescent value — so the very first operation waits forever;
and an operation that does not wait performs no increment at all, because
the increment sits inside the wait loop.  This contradicts the claimed
protocol (increment before reading the head, wait only when quiescence is
not met). -/
theorem c7_entry_guard_waits_at_quiescence :
    entryGuardWaits orderCountInit = true ∧
    entryGuardCounterIfNoWait 5 = 5 ∧
    exitUpdateCounter 1 = 0 ∧
    promoteEntryWaits 0 = true :=
  ⟨rfl, rfl, rfl, rfl⟩

/-- C2: on a read miss, cachetest.c installs the requested block id in the
victim slot, but the part_000 revision does not: after reading absent
block 5 from the initialized capacity-4 cache, cachetest.c's victim slot 0
holds blocknum 5 while part_000's victim slot 0 still holds INVALID, even
though its payload and clean flag were updated. -/
theorem c2_part000_read_miss_blocknum :
    ((readblock (initState 4 (fun x => x)) 5).2.1.cache.getD 0
      dummyBlock).blocknum = 5 ∧
    ((readblock (initState 4 (fun x => x)) 5).2.1.cache.getD 0
      dummyBlock).dirty = false ∧
    ((readblock (initState 4 (fun x => x)) 5).2.1.cache.getD 0
      dummyBlock).block = 5 ∧
    ((Part000.readblock (initState 4 (fun x => x)) 5).2.1.cache.getD 0
      dummyBlock).blocknum = INVALID ∧
    ((Part000.readblock (initState 4 (fun x => x)) 5).2.1.cache.getD 0
      dummyBlock).dirty = false ∧
    ((Part000.readblock (initState 4 (fun x => x)) 5).2.1.cache.getD 0
      dummyBlock).block = 5 := by
  refine ⟨?_, ?_, ?_, ?_, ?_, ?_⟩ <;> decide

/-- C8 counterexample: with the same capacity 1 and the same initial
backing store (block i holds i), the operation sequence
write 0 := 100; read 1; read 0 returns 100 from the cachetest.c revision
but 1 from the part_000 revision, so the two revisions are not
observationally equivalent. -/
theorem c8_not_equivalent_counterexample :
    (readblock (execOps (initState 1 (fun x => x))
      [Op.write 0 100, Op.read 1]) 0).1 = 100 ∧
    (Part000.readblock (Part000.execOps (initState 1 (fun x => x))
      [Op.write 0 100, Op.read 1]) 0).1 = 1 := by
  constructor <;> decide

/-- C8 amended: the two revisions agree on writeblock completely, and on
every single readblock call they return the same payload and produce the
same backing store, the same recency order, the same store calls, and the
same dirty flag and payload in every slot; only the victim slot's blocknum
field after a read miss can differ (part_000 leaves it unchanged), which is
what breaks observational equivalence over sequences. -/
theorem c8_single_op_agreement :
    (∀ (s : CacheState) (b : Int) (v : Payload),
      Part000.writeblock s b v = writeblock s b v) ∧
    (∀ (s : CacheState) (b : Int),
      (Part000.readblock s b).1 = (readblock s b).1 ∧
      (Part000.readblock s b).2.1.blockData = (readblock s b).2.1.blockData ∧
      (Part000.readblock s b).2.1.orderArray = (readblock s b).2.1.orderArray ∧
      (Part000.readblock s b).2.2 = (readblock s b).2.2 ∧
      ∀ i : Nat,
        ((Part000.readblock s b).2.1.cache.getD i dummyBlock).dirty =
          ((readblock s b).2.1.cache.getD i dummyBlock).dirty ∧
        ((Part000.readblock s b).2.1.cache.getD i dummyBlock).block =
          ((readblock s b).2.1.cache.getD i dummyBlock).block) :=
  ⟨writeblock_eq_part000, readblock_agree⟩

theorem getD_set_eq_of_lt (l : List CacheBlock) (h0 : Nat) (nb : CacheBlock)
    (h : h0 < l.length) : (l.set h0 nb).getD h0 dummyBlock = nb := by
  have hlt : h0 < (l.set h0 nb).length := by simpa using h
  rw [List.getD_eq_getElem _ _ hlt, List.getElem_set_self]

theorem getD_set_ne_index (l : List CacheBlock) (h0 i : Nat) (nb : CacheBlock)
    (h : i ≠ h0) : (l.set h0 nb).getD i dummyBlock = l.getD i dummyBlock := by
  by_cases hlt : i < l.length
  · have hlt1 : i < (l.set h0 nb).length := by simpa using hlt
    rw [List.getD_eq_getElem _ _ hlt1, List.getD_eq_getElem _ _ hlt,
      List.getElem_set_ne (Ne.symm h)]
  · rw [List.getD_eq_default _ _ (by simpa using Nat.le_of_not_lt hlt),
      List.getD_eq_default _ _ (Nat.le_of_not_lt hlt)]

/-- C5: a miss that evicts a dirty victim performs exactly one backing
store call, carrying the victim's pre-call payload under its pre-call
block id (so the store happens before the slot's fields are overwritten);
a clean eviction and every hit perform no store call at all.  This holds
for both readblock and writeblock. -/
theorem c5_writeback_store_calls (s : CacheState) (b : Int) (v : Payload) :
    (findBlock s.cache b = none →
      ((s.cache.getD s.orderArray.headI dummyBlock).dirty = true →
        (readblock s b).2.2 =
          [((s.cache.getD s.orderArray.headI dummyBlock).blocknum,
            (s.cache.getD s.orderArray.headI dummyBlock).block)] ∧
        (writeblock s b v).2 =
          [((s.cache.getD s.orderArray.headI dummyBlock).blocknum,
            (s.cache.getD s.orderArray.headI dummyBlock).block)]) ∧
      ((s.cache.getD s.orderArray.headI dummyBlock).dirty = false →
        (readblock s b).2.2 = [] ∧ (writeblock s b v).2 = [])) ∧
    (∀ j, findBlock s.cache b = some j →
      (readblock s b).2.2 = [] ∧ (writeblock s b v).2 = []) := by
  constructor
  · intro hf
    constructor
    · intro hd
      constructor
      · simp only [readblock, hf, hd, if_true]
      · simp only [writeblock, hf, hd, if_true]
    · intro hd
      constructor
      · simp only [readblock, hf, hd, Bool.false_eq_true, if_false]
      · simp only [writeblock, hf, hd, Bool.false_eq_true, if_false]
  · intro j hf
    constructor
    · simp only [readblock, hf]
    · simp only [writeblock, hf]

/-- Witness for C5 at a concrete input: a dirty capacity-1 cache holding
block 3 with payload 7 is evicted by accessing absent block 9, producing
exactly the store call (3, 7). -/
theorem c5_writeback_store_calls_witness :
    (readblock (execOps (initState 1 (fun x => x)) [Op.write 3 7]) 9).2.2 =
      [(3, 7)] ∧
    (writeblock (execOps (initState 1 (fun x => x)) [Op.write 3 7]) 9 11).2 =
      [(3, 7)] := by
  have h := ((c5_writeback_store_calls
    (execOps (initState 1 (fun x => x)) [Op.write 3 7]) 9 11).1
    (by decide)).1 (by decide)
  constructor
  · rw [h.1]; decide
  · rw [h.2]; decide

/-- C6: on a duplicate-free recency order (guaranteed by the permutation
invariant) putToEnd removes the promoted index from its position and
appends it at the tail; every miss (read or write) changes exactly the
slot at the head of the recency order, installs the requested block there,
and moves the head index to the tail of the order; every hit promotes the
hit slot's index to the tail. -/
theorem c6_lru_selection (s : CacheState) (b : Int) (v : Payload) (n : Nat)
    (hlen : s.cache.length = n) (hn : 0 < n)
    (hperm : s.orderArray.Perm (List.range n)) :
    (∀ x ∈ s.orderArray,
      putToEnd s.orderArray x = s.orderArray.erase x ++ [x]) ∧
    (findBlock s.cache b = none →
      ((readblock s b).2.1.cache.getD s.orderArray.headI
        dummyBlock).blocknum = b ∧
      (∀ i : Nat, i ≠ s.orderArray.headI →
        (readblock s b).2.1.cache.getD i dummyBlock =
          s.cache.getD i dummyBlock) ∧
      (readblock s b).2.1.orderArray =
        s.orderArray.tail ++ [s.orderArray.headI] ∧
      (writeblock s b v).1.cache.getD s.orderArray.headI dummyBlock =
        { blocknum := b, dirty := true, block := v } ∧
      (∀ i : Nat, i ≠ s.orderArray.headI →
        (writeblock s b v).1.cache.getD i dummyBlock =
          s.cache.getD i dummyBlock) ∧
      (writeblock s b v).1.orderArray =
        s.orderArray.tail ++ [s.orderArray.headI]) ∧
    (∀ j, findBlock s.cache b = some j →
      (readblock s b).2.1.orderArray = s.orderArray.erase j ++ [j] ∧
      (writeblock s b v).1.orderArray = s.orderArray.erase j ++ [j]) := by
  have hnd : s.orderArray.Nodup := hperm.symm.nodup (List.nodup_range n)
  have hne : s.orderArray ≠ [] := perm_range_nonempty hperm hn
  have hhead := putToEnd_headI s.orderArray hnd hne
  refine ⟨?_, ?_, ?_⟩
  · intro x hx
    exact putToEnd_eq_erase_append _ x hnd hx
  · intro hf
    have hh : s.orderArray.headI < n := perm_range_headI_lt hperm hn
    have hh2 : s.orderArray.headI < s.cache.length := by omega
    simp only [readblock, writeblock, hf]
    refine ⟨?_, ?_, hhead, ?_, ?_, hhead⟩
    · rw [getD_set_eq_of_lt _ _ _ hh2]
    · intro i hi
      exact getD_set_ne_index _ _ _ _ hi
    · rw [getD_set_eq_of_lt _ _ _ hh2]
    · intro i hi
      exact getD_set_ne_index _ _ _ _ hi
  · intro j hf
    obtain ⟨hj, -⟩ := findBlock_some s.cache b j hf
    have hjmem : j ∈ s.orderArray := hperm.mem_iff.mpr
      (List.mem_range.mpr (by omega))
    have hput := putToEnd_eq_erase_append _ j hnd hjmem
    constructor
    · simp only [readblock, hf]
      exact hput
    · simp only [writeblock, hf]
      exact hput

/-- Witness for C6 at a concrete input. -/
theorem c6_lru_selection_witness :
    putToEnd [0, 1] 0 = List.erase [0, 1] 0 ++ [0] ∧
    (readblock (initState 2 (fun x => x)) 5).2.1.orderArray = [1, 0] ∧
    (writeblock (initState 2 (fun x => x)) 5 11).1.cache.getD 0 dummyBlock =
      { blocknum := 5, dirty := true, block := 11 } := by
  have h := c6_lru_selection (initState 2 (fun x => x)) 5 11 2 (by decide)
    (by norm_num) (by decide)
  refine ⟨h.1 0 (by decide), ?_, (h.2.1 (by decide)).2.2.2.1⟩
  rw [(h.2.1 (by decide)).2.2.1]
  decide

/-- C10: a single writeblock call never changes the backing-store entry of
the block being written, and the only entry it may change is the one under
the current recency-order head's (the potential victim's) old block id;
this holds for both revisions. -/
theorem c10_write_frame (s : CacheState) (b : Int) (v : Payload) :
    (writeblock s b v).1.blockData b = s.blockData b ∧
    (Part000.writeblock s b v).1.blockData b = s.blockData b ∧
    ∀ x : Int, x ≠ (s.cache.getD s.orderArray.headI dummyBlock).blocknum →
      (writeblock s b v).1.blockData x = s.blockData x ∧
      (Part000.writeblock s b v).1.blockData x = s.blockData x := by
  have hmain : (writeblock s b v).1.blockData b = s.blockData b ∧
      ∀ x : Int, x ≠ (s.cache.getD s.orderArray.headI dummyBlock).blocknum →
        (writeblock s b v).1.blockData x = s.blockData x := by
    cases hf : findBlock s.cache b with
    | some j =>
      constructor
      · simp only [writeblock, hf]
      · intro x hx
        simp only [writeblock, hf]
    | none =>
      have hnone := findBlock_none s.cache b hf
      cases hd : (s.cache.getD s.orderArray.headI dummyBlock).dirty with
      | false =>
        constructor
        · simp only [writeblock, hf, hd, Bool.false_eq_true, if_false]
        · intro x hx
          simp only [writeblock, hf, hd, Bool.false_eq_true, if_false]
      | true =>
        have hvb : (s.cache.getD s.orderArray.headI dummyBlock).blocknum ≠ b := by
          by_cases hlt : s.orderArray.headI < s.cache.length
          · rw [List.getD_eq_getElem _ _ hlt]
            exact hnone _ (List.getElem_mem hlt)
          · rw [List.getD_eq_default _ _ (Nat.le_of_not_lt hlt)] at hd
            exact absurd hd (by decide)
        constructor
        · simp only [writeblock, hf, hd, if_true]
          exact dblockwrite_ne _ _ _ _ (Ne.symm hvb)
        · intro x hx
          simp only [writeblock, hf, hd, if_true]
          exact dblockwrite_ne _ _ _ _ hx
  obtain ⟨h1, h2⟩ := hmain
  refine ⟨h1, ?_, fun x hx => ⟨h2 x hx, ?_⟩⟩
  · rw [writeblock_eq_part000]
    exact h1
  · rw [writeblock_eq_part000]
    exact h2 x hx

/-- Witness for C10 at a concrete input: writing absent block 9 to a dirty
capacity-1 cache holding block 3 leaves both disk entry 9 and disk
entry 50 unchanged. -/
theorem c10_write_frame_witness :
    (writeblock (execOps (initState 1 (fun x => x)) [Op.write 3 7])
      9 11).1.blockData 9 =
      (execOps (initState 1 (fun x => x)) [Op.write 3 7]).blockData 9 ∧
    (writeblock (execOps (initState 1 (fun x => x)) [Op.write 3 7])
      9 11).1.blockData 50 =
      (execOps (initState 1 (fun x => x)) [Op.write 3 7]).blockData 50 := by
  have h := c10_write_frame
    (execOps (initState 1 (fun x => x)) [Op.write 3 7]) 9 11
  exact ⟨h.1, (h.2.2 50 (by decide)).1⟩
